import Mathlib

/-!
Verification of the concurrency-and-caching core of the Skyflow tokenization
proxy (a Go service bridging BigQuery remote functions and the Skyflow vault).

The Go source is shallowly embedded: pure helpers become Lean functions,
network calls become explicit environment functions passed as parameters,
and the single-flight deduplicator becomes a small-step transition system
over explicit thread states.  Go `error` values are modelled as `String`
messages (`Except String` for fallible calls, `Option String` for stored
error fields), and Go `len` on strings is modelled by `String.utf8ByteSize`
(Go counts UTF-8 bytes).
-/

deriving instance DecidableEq for Except

/-! ## Batch pipeline (`batchProcessor`) -/

/-- Fueled worker for the chunk decomposition performed by the
`batchProcessor` loop (`for i := 0; i < len(items); i += batchSize`).
The fuel only forces structural termination; it is always instantiated
with the list length, which suffices whenever `0 < bs`. -/
def chunksOfAux (bs : Nat) : Nat → List α → List (List α)
  | _, [] => []
  | 0, _ :: _ => []
  | fuel + 1, x :: xs => (x :: xs).take bs :: chunksOfAux bs fuel (xs.drop (bs - 1))

/-- The chunk decomposition of the `batchProcessor` loop: contiguous slices
`items[i:min(i+bs, len)]` of at most `bs` elements. -/
def chunksOf (bs : Nat) (l : List α) : List (List α) := chunksOfAux bs l.length l

/-- `fmt.Errorf("error processing batch: %v", err)`. -/
def wrapBatchError (e : String) : String := "error processing batch: " ++ e

/-- The body of the `batchProcessor` loop, expressed over the chunk list:
run the processor on each chunk in order, concatenating results, aborting
with a wrapped error on the first failing chunk. -/
def runChunks (processor : List α → Except String (List β)) :
    List (List α) → Except String (List β)
  | [] => .ok []
  | c :: cs =>
    match processor c with
    | .error e => .error (wrapBatchError e)
    | .ok rs =>
      match runChunks processor cs with
      | .error e => .error e
      | .ok rest => .ok (rs ++ rest)

/-- `if batchSize <= 0 { batchSize = 25 }`; the effective size is always positive. -/
def effectiveBatchSize (batchSize : Int) : Nat :=
  if batchSize ≤ 0 then 25 else batchSize.toNat

/-- `batchProcessor` from the source: default the batch size, then process the
contiguous chunks sequentially. -/
def batchProcessor (items : List α) (batchSize : Int)
    (processor : List α → Except String (List β)) : Except String (List β) :=
  runChunks processor (chunksOf (effectiveBatchSize batchSize) items)

/-- The chunks on which the loop actually invokes the processor: every chunk
up to and including the first one whose processor call fails. -/
def invokedChunks (processor : List α → Except String (List β)) :
    List (List α) → List (List α)
  | [] => []
  | c :: cs =>
    match processor c with
    | .error _ => [c]
    | .ok _ => c :: invokedChunks processor cs

theorem effectiveBatchSize_pos (b : Int) : 0 < effectiveBatchSize b := by
  unfold effectiveBatchSize
  split
  · omega
  · rename_i h
    omega

theorem chunksOfAux_flatten (bs : Nat) (hbs : 0 < bs) :
    ∀ (fuel : Nat) (l : List α), l.length ≤ fuel →
      (chunksOfAux bs fuel l).flatten = l := by
  intro fuel
  induction fuel with
  | zero =>
    intro l hl
    rw [List.eq_nil_of_length_eq_zero (Nat.le_zero.mp hl)]
    rfl
  | succ f ih =>
    intro l hl
    match l with
    | [] => rfl
    | x :: xs =>
      simp only [chunksOfAux, List.flatten_cons]
      rw [ih (xs.drop (bs - 1)) (by simp only [List.length_drop]; simp at hl; omega)]
      rw [List.take_cons (by omega)]
      simp only [List.cons_append, List.cons.injEq, true_and]
      have : bs - 1 + 1 = bs := by omega
      rw [← this] at *
      exact List.take_append_drop _ xs

theorem chunksOf_flatten (bs : Nat) (hbs : 0 < bs) (l : List α) :
    (chunksOf bs l).flatten = l :=
  chunksOfAux_flatten bs hbs l.length l (Nat.le_refl _)

theorem mem_of_mem_chunksOfAux {bs : Nat} :
    ∀ {fuel : Nat} {l : List α} {c : List α} {x : α},
      c ∈ chunksOfAux bs fuel l → x ∈ c → x ∈ l := by
  intro fuel
  induction fuel with
  | zero =>
    intro l c x hc
    match l with
    | [] => simp [chunksOfAux] at hc
    | _ :: _ => simp [chunksOfAux] at hc
  | succ f ih =>
    intro l c x hc hx
    match l with
    | [] => simp [chunksOfAux] at hc
    | y :: ys =>
      simp only [chunksOfAux, List.mem_cons] at hc
      rcases hc with hc | hc
      · subst hc
        exact List.mem_of_mem_take hx
      · exact List.mem_cons_of_mem y (List.mem_of_mem_drop (ih hc hx))

theorem mem_of_mem_chunksOf {bs : Nat} {l : List α} {c : List α} {x : α}
    (hc : c ∈ chunksOf bs l) (hx : x ∈ c) : x ∈ l :=
  mem_of_mem_chunksOfAux hc hx

theorem length_le_of_mem_chunksOfAux {bs : Nat} :
    ∀ {fuel : Nat} {l : List α} {c : List α},
      c ∈ chunksOfAux bs fuel l → c.length ≤ bs := by
  intro fuel
  induction fuel with
  | zero =>
    intro l c hc
    match l with
    | [] => simp [chunksOfAux] at hc
    | _ :: _ => simp [chunksOfAux] at hc
  | succ f ih =>
    intro l c hc
    match l with
    | [] => simp [chunksOfAux] at hc
    | y :: ys =>
      simp only [chunksOfAux, List.mem_cons] at hc
      rcases hc with hc | hc
      · subst hc
        simp [List.length_take]
      · exact ih hc

theorem ne_nil_of_mem_chunksOfAux {bs : Nat} (hbs : 0 < bs) :
    ∀ {fuel : Nat} {l : List α} {c : List α},
      c ∈ chunksOfAux bs fuel l → c ≠ [] := by
  intro fuel
  induction fuel with
  | zero =>
    intro l c hc
    match l with
    | [] => simp [chunksOfAux] at hc
    | _ :: _ => simp [chunksOfAux] at hc
  | succ f ih =>
    intro l c hc
    match l with
    | [] => simp [chunksOfAux] at hc
    | y :: ys =>
      simp only [chunksOfAux, List.mem_cons] at hc
      rcases hc with hc | hc
      · subst hc
        rw [List.take_cons (by omega)]
        simp
      · exact ih hc

theorem runChunks_all_ok (processor : List α → Except String (List β))
    (g : List α → List β) (cs : List (List α))
    (h : ∀ c ∈ cs, processor c = .ok (g c)) :
    runChunks processor cs = .ok (cs.map g).flatten := by
  induction cs with
  | nil => simp [runChunks]
  | cons c cs ih =>
    have hc := h c (List.mem_cons_self c cs)
    have ihr := ih (fun d hd => h d (List.mem_cons_of_mem c hd))
    simp [runChunks, hc, ihr]

theorem invokedChunks_all_ok (processor : List α → Except String (List β))
    (cs : List (List α)) (h : ∀ c ∈ cs, (processor c).isOk) :
    invokedChunks processor cs = cs := by
  induction cs with
  | nil => simp [invokedChunks]
  | cons c cs ih =>
    have hc := h c (List.mem_cons_self c cs)
    have ihr := ih (fun d hd => h d (List.mem_cons_of_mem c hd))
    unfold invokedChunks
    match hpc : processor c with
    | .error e => rw [hpc] at hc; simp [Except.isOk, Except.toBool] at hc
    | .ok rs => simp [ihr]

/-- **C2.** `batchProcessor`: a non-positive batch size is replaced by 25; the
items are partitioned into contiguous chunks of at most the effective batch
size whose concatenation restores the input (and no chunk is empty); when
every chunk succeeds, the processor is invoked on exactly the chunks in input
order and the results are concatenated in that order; in particular on
`[1..10]` with batch size 3 the processor is invoked on
`[1,2,3],[4,5,6],[7,8,9],[10]` in that order and an identity processor
returns `[1..10]`. -/
theorem batchProcessor_chunks_in_order :
    (∀ (α β : Type) (items : List α) (b : Int)
        (fn : List α → Except String (List β)),
        b ≤ 0 → batchProcessor items b fn = batchProcessor items 25 fn) ∧
    (∀ (α : Type) (items : List α) (b : Int),
        (chunksOf (effectiveBatchSize b) items).flatten = items ∧
        (∀ c ∈ chunksOf (effectiveBatchSize b) items,
          c.length ≤ effectiveBatchSize b ∧ c ≠ [])) ∧
    (∀ (α β : Type) (items : List α) (b : Int)
        (fn : List α → Except String (List β)) (g : List α → List β),
        (∀ c ∈ chunksOf (effectiveBatchSize b) items, fn c = .ok (g c)) →
        batchProcessor items b fn =
          .ok ((chunksOf (effectiveBatchSize b) items).map g).flatten ∧
        invokedChunks fn (chunksOf (effectiveBatchSize b) items) =
          chunksOf (effectiveBatchSize b) items) ∧
    chunksOf (effectiveBatchSize 3) [1, 2, 3, 4, 5, 6, 7, 8, 9, 10] =
      [[1, 2, 3], [4, 5, 6], [7, 8, 9], [10]] ∧
    batchProcessor [1, 2, 3, 4, 5, 6, 7, 8, 9, 10] 3
        (fun c => Except.ok c) = Except.ok [1, 2, 3, 4, 5, 6, 7, 8, 9, 10] := by
  refine ⟨?_, ?_, ?_, by decide, by decide⟩
  · intro α β items b fn hb
    have he : effectiveBatchSize b = effectiveBatchSize 25 := by
      unfold effectiveBatchSize
      rw [if_pos hb, if_neg (by omega)]
      rfl
    unfold batchProcessor
    rw [he]
  · intro α items b
    refine ⟨chunksOf_flatten _ (effectiveBatchSize_pos b) items, fun c hc => ?_⟩
    exact ⟨length_le_of_mem_chunksOfAux hc,
      ne_nil_of_mem_chunksOfAux (effectiveBatchSize_pos b) hc⟩
  · intro α β items b fn g h
    refine ⟨runChunks_all_ok fn g _ h, invokedChunks_all_ok fn _ ?_⟩
    intro c hc
    rw [h c hc]
    rfl

/-- Witness for C2: applies the theorem at batch size `-2` (non-positive, so
25 is substituted) and at an all-succeeding identity processor. -/
theorem batchProcessor_chunks_in_order_witness :
    batchProcessor [1, 2] (-2) (fun c => Except.ok c) =
      batchProcessor [1, 2] 25 (fun c => Except.ok c) ∧
    batchProcessor [1, 2, 3] 2 (fun c => Except.ok c) =
      Except.ok ((chunksOf (effectiveBatchSize 2) [1, 2, 3]).map id).flatten :=
  ⟨batchProcessor_chunks_in_order.1 Nat Nat [1, 2] (-2)
      (fun c => Except.ok c) (by decide),
    (batchProcessor_chunks_in_order.2.2.1 Nat Nat [1, 2, 3] 2
      (fun c => Except.ok c) id (fun c _ => rfl)).1⟩

theorem runChunks_fail_fast (processor : List α → Except String (List β))
    (pre : List (List α)) (c : List α) (post : List (List α)) (e : String)
    (hpre : ∀ p ∈ pre, ∃ rs, processor p = .ok rs)
    (hc : processor c = .error e) :
    runChunks processor (pre ++ c :: post) = .error (wrapBatchError e) ∧
    invokedChunks processor (pre ++ c :: post) = pre ++ [c] := by
  induction pre with
  | nil => simp [runChunks, invokedChunks, hc]
  | cons p pre ih =>
    obtain ⟨rs, hp⟩ := hpre p (List.mem_cons_self p pre)
    have ihr := ih (fun d hd => hpre d (List.mem_cons_of_mem p hd))
    constructor
    · rw [List.cons_append]
      simp only [runChunks, hp, ihr.1]
    · rw [List.cons_append]
      simp only [invokedChunks, hp, ihr.2]
      rfl

/-- **C3.** `batchProcessor` fail-fast: if the chunks decompose as
`pre ++ c :: post` with every chunk of `pre` succeeding and `c` failing, the
whole call returns the (wrapped, non-nil) error — carrying no results from the
earlier chunks — and the processor is invoked on exactly `pre ++ [c]`: never
on any chunk after the first failing one. -/
theorem batchProcessor_fail_fast :
    ∀ (α β : Type) (items : List α) (b : Int)
      (fn : List α → Except String (List β))
      (pre : List (List α)) (c : List α) (post : List (List α)) (e : String),
      chunksOf (effectiveBatchSize b) items = pre ++ c :: post →
      (∀ p ∈ pre, ∃ rs, fn p = .ok rs) →
      fn c = .error e →
      batchProcessor items b fn = .error (wrapBatchError e) ∧
      invokedChunks fn (chunksOf (effectiveBatchSize b) items) = pre ++ [c] := by
  intro α β items b fn pre c post e hchunks hpre hc
  unfold batchProcessor
  rw [hchunks]
  exact runChunks_fail_fast fn pre c post e hpre hc

/-- Witness for C3: with items `[1,2,3,4,5,6]`, batch size 2, and a processor
failing exactly on `[3,4]`, the call aborts with the wrapped error and the
third chunk `[5,6]` is never processed. -/
theorem batchProcessor_fail_fast_witness :
    batchProcessor [1, 2, 3, 4, 5, 6] 2
        (fun c => if c = [3, 4] then Except.error "boom" else Except.ok c) =
      Except.error (wrapBatchError "boom") ∧
    invokedChunks
        (fun c => if c = [3, 4] then Except.error "boom" else Except.ok c)
        (chunksOf (effectiveBatchSize 2) [1, 2, 3, 4, 5, 6]) =
      [[1, 2], [3, 4]] :=
  batchProcessor_fail_fast Nat Nat [1, 2, 3, 4, 5, 6] 2
    (fun c => if c = [3, 4] then Except.error "boom" else Except.ok c)
    [[1, 2]] [3, 4] [[5, 6]] "boom" (by decide)
    (by
      intro p hp
      refine ⟨p, ?_⟩
      simp only [List.mem_singleton] at hp
      subst hp
      decide)
    (by decide)

/-! ## Role configuration and authorization resolver -/

/-- `RoleMapping`: a Skyflow role ID and the Google IAM roles that map to it. -/
structure RoleMapping where
  skyflowRoleID : String
  googleRoles : List String
deriving DecidableEq

/-- `RoleConfig`: the default Skyflow role ID plus the ordered role mappings. -/
structure RoleConfig where
  defaultRoleID : String
  roleMappings : List RoleMapping
deriving DecidableEq

/-- The two inner loops of `hasRequiredRole`
(`for _, roleMapping := range config.RoleMappings { for _, googleRole ... }`,
a linear equality search, i.e. list membership): the first mapping whose
google-role list contains `userRole`. -/
def mappingFor (userRole : String) : List RoleMapping → Option String
  | [] => none
  | m :: rest =>
    if userRole ∈ m.googleRoles then some m.skyflowRoleID
    else mappingFor userRole rest

/-- The outer loop of the empty-`requiredRoles` branch
(`for _, userRole := range userRoles`): the internal role of the first caller
role that some mapping covers. -/
def firstMappedRole (mappings : List RoleMapping) : List String → Option String
  | [] => none
  | u :: us =>
    match mappingFor u mappings with
    | some r => some r
    | none => firstMappedRole mappings us

/-- The double loop of the non-empty-`requiredRoles` branch
(`for _, userRole := range userRoles { for _, required := range requiredRoles }`):
the first caller role appearing among the required roles. -/
def firstRequiredUserRole (requiredRoles : List String) : List String → Option String
  | [] => none
  | u :: us =>
    if u ∈ requiredRoles then some u
    else firstRequiredUserRole requiredRoles us

/-- `hasRequiredRole` from the source (the `getRoleConfig()` read is passed in
as the `config` argument). -/
def hasRequiredRole (config : RoleConfig) (userRoles requiredRoles : List String) :
    String × Bool :=
  if requiredRoles.isEmpty then
    match firstMappedRole config.roleMappings userRoles with
    | some r => (r, true)
    | none => (config.defaultRoleID, true)
  else
    match firstRequiredUserRole requiredRoles userRoles with
    | some u =>
      match mappingFor u config.roleMappings with
      | some r => (r, true)
      | none => (config.defaultRoleID, true)
    | none => (config.defaultRoleID, false)

theorem mappingFor_eq_findSome (userRole : String) (mappings : List RoleMapping) :
    mappingFor userRole mappings =
      mappings.findSome? (fun m =>
        if userRole ∈ m.googleRoles then some m.skyflowRoleID else none) := by
  induction mappings with
  | nil => rfl
  | cons m rest ih =>
    simp only [mappingFor, List.findSome?_cons]
    by_cases h : userRole ∈ m.googleRoles
    · simp [h]
    · simp [h, ih]

theorem firstMappedRole_eq_findSome (mappings : List RoleMapping)
    (userRoles : List String) :
    firstMappedRole mappings userRoles =
      userRoles.findSome? (fun u =>
        mappings.findSome? (fun m =>
          if u ∈ m.googleRoles then some m.skyflowRoleID else none)) := by
  induction userRoles with
  | nil => rfl
  | cons u us ih =>
    simp only [firstMappedRole, List.findSome?_cons]
    rw [mappingFor_eq_findSome]
    cases (List.findSome? (fun m =>
        if u ∈ m.googleRoles then some m.skyflowRoleID else none) mappings) with
    | none => exact ih
    | some r => rfl

theorem firstRequiredUserRole_none (requiredRoles userRoles : List String)
    (h : ∀ u ∈ userRoles, u ∉ requiredRoles) :
    firstRequiredUserRole requiredRoles userRoles = none := by
  induction userRoles with
  | nil => rfl
  | cons u us ih =>
    have hu := h u (List.mem_cons_self u us)
    simp only [firstRequiredUserRole, hu, if_false]
    exact ih (fun v hv => h v (List.mem_cons_of_mem u hv))

/-- **C4.** `hasRequiredRole`: with empty `requiredRoles` it is authorized and
resolves the first caller role (caller-role order, then config mapping order)
covered by some mapping, defaulting to `defaultRoleID` when no caller role is
mapped; with non-empty `requiredRoles` and no intersection between caller and
required roles it returns `(defaultRoleID, false)`; and on the concrete
config `defaultRoleID="D"`, one mapping `A ↤ {g1}`:
`resolve({g1},{}) = ("A",true)`, `resolve({gX},{}) = ("D",true)`,
`resolve({gX},{g1}) = ("D",false)`. -/
theorem hasRequiredRole_resolution :
    (∀ (c : RoleConfig) (userRoles : List String),
        hasRequiredRole c userRoles [] =
          ((userRoles.findSome? (fun u =>
              c.roleMappings.findSome? (fun m =>
                if u ∈ m.googleRoles then some m.skyflowRoleID else none))).getD
             c.defaultRoleID,
            true)) ∧
    (∀ (c : RoleConfig) (userRoles requiredRoles : List String),
        requiredRoles ≠ [] → (∀ u ∈ userRoles, u ∉ requiredRoles) →
        hasRequiredRole c userRoles requiredRoles = (c.defaultRoleID, false)) ∧
    hasRequiredRole ⟨"D", [⟨"A", ["g1"]⟩]⟩ ["g1"] [] = ("A", true) ∧
    hasRequiredRole ⟨"D", [⟨"A", ["g1"]⟩]⟩ ["gX"] [] = ("D", true) ∧
    hasRequiredRole ⟨"D", [⟨"A", ["g1"]⟩]⟩ ["gX"] ["g1"] = ("D", false) := by
  refine ⟨?_, ?_, by decide, by decide, by decide⟩
  · intro c userRoles
    unfold hasRequiredRole
    rw [if_pos (show ([] : List String).isEmpty = true from rfl)]
    rw [firstMappedRole_eq_findSome]
    cases (userRoles.findSome? (fun u =>
        c.roleMappings.findSome? (fun m =>
          if u ∈ m.googleRoles then some m.skyflowRoleID else none))) with
    | none => rfl
    | some r => rfl
  · intro c userRoles requiredRoles hne hdisj
    unfold hasRequiredRole
    rw [if_neg (by simpa using hne)]
    rw [firstRequiredUserRole_none requiredRoles userRoles hdisj]

/-- Witness for C4: instantiates the open-operation clause at a two-mapping
config and the unauthorized clause at disjoint role sets. -/
theorem hasRequiredRole_resolution_witness :
    hasRequiredRole ⟨"D", [⟨"A", ["g1"]⟩, ⟨"B", ["g2"]⟩]⟩ ["g0", "g2"] [] =
      (((["g0", "g2"] : List String).findSome? (fun u =>
          ([⟨"A", ["g1"]⟩, ⟨"B", ["g2"]⟩] : List RoleMapping).findSome? (fun m =>
            if u ∈ m.googleRoles then some m.skyflowRoleID else none))).getD "D",
        true) ∧
    hasRequiredRole ⟨"D", [⟨"A", ["g1"]⟩]⟩ ["g2", "g3"] ["g1"] = ("D", false) :=
  ⟨hasRequiredRole_resolution.1 ⟨"D", [⟨"A", ["g1"]⟩, ⟨"B", ["g2"]⟩]⟩ ["g0", "g2"],
    hasRequiredRole_resolution.2.1 ⟨"D", [⟨"A", ["g1"]⟩]⟩ ["g2", "g3"] ["g1"]
      (by decide) (by decide)⟩

/-! ## Config cache (`getRoleConfig`) -/

/-- The mutable `roleConfigCache` global: the loaded config (if any) plus the
timestamp of the last successful load.  Time is modelled in seconds. -/
structure RoleConfigCacheState where
  config : Option RoleConfig
  timestamp : Nat
deriving DecidableEq

/-- `roleConfigCacheDuration = 30 * time.Second`. -/
def roleConfigCacheDuration : Nat := 30

/-- Environment outcome of one reload attempt: creating the Secret Manager
client, fetching the `role_mappings` secret, or unmarshalling it may each
fail; otherwise a fresh `RoleConfig` is produced. -/
inductive ConfigLoadOutcome where
  | clientError (e : String)
  | secretError (e : String)
  | parseError (e : String)
  | loaded (c : RoleConfig)
deriving DecidableEq

/-- Whether the reload attempt failed (any of the three error stages). -/
def ConfigLoadOutcome.failed : ConfigLoadOutcome → Bool
  | .loaded _ => false
  | _ => true

/-- `getRoleConfig` from the source as a sequential state transition: `none`
models the `log.Fatal` exits.  The read-lock fast path and the double check
under the write lock collapse to the single freshness test; a stale cache
triggers a reload whose failure at any stage falls back to the previous
value when one exists. -/
def getRoleConfig (st : RoleConfigCacheState) (now : Nat)
    (load : ConfigLoadOutcome) : Option (RoleConfig × RoleConfigCacheState) :=
  match st.config with
  | some c =>
    if now - st.timestamp < roleConfigCacheDuration then some (c, st)
    else
      match load with
      | .loaded c2 => some (c2, ⟨some c2, now⟩)
      | .clientError _ => some (c, st)
      | .secretError _ => some (c, st)
      | .parseError _ => some (c, st)
  | none =>
    match load with
    | .loaded c2 => some (c2, ⟨some c2, now⟩)
    | .clientError _ => none
    | .secretError _ => none
    | .parseError _ => none

/-- **C5.** `getRoleConfig`: whenever a previously loaded config exists the
call returns a config (never the fatal exit); in particular when the cached
value is stale and the reload fails at any stage, the stale cached value is
served with the cache unchanged; the fatal exit happens only when no previous
value exists and the reload fails. -/
theorem getRoleConfig_stale_fallback :
    (∀ (st : RoleConfigCacheState) (now : Nat) (load : ConfigLoadOutcome)
        (c : RoleConfig), st.config = some c →
        (getRoleConfig st now load).isSome) ∧
    (∀ (st : RoleConfigCacheState) (now : Nat) (load : ConfigLoadOutcome)
        (c : RoleConfig), st.config = some c →
        roleConfigCacheDuration ≤ now - st.timestamp →
        load.failed = true →
        getRoleConfig st now load = some (c, st)) ∧
    (∀ (st : RoleConfigCacheState) (now : Nat) (load : ConfigLoadOutcome),
        st.config = none → load.failed = true →
        getRoleConfig st now load = none) := by
  refine ⟨?_, ?_, ?_⟩
  · intro st now load c hc
    simp only [getRoleConfig, hc]
    by_cases h : now - st.timestamp < roleConfigCacheDuration
    · simp [h]
    · rw [if_neg h]
      cases load <;> rfl
  · intro st now load c hc hstale hfail
    simp only [getRoleConfig, hc]
    rw [if_neg (by omega)]
    cases load with
    | loaded c2 => simp [ConfigLoadOutcome.failed] at hfail
    | clientError e => rfl
    | secretError e => rfl
    | parseError e => rfl
  · intro st now load hc hfail
    simp only [getRoleConfig, hc]
    cases load with
    | loaded c2 => simp [ConfigLoadOutcome.failed] at hfail
    | clientError e => rfl
    | secretError e => rfl
    | parseError e => rfl

/-- Witness for C5: a stale cache (loaded at 0, read at 40) with a failing
secret fetch serves the cached config, and a cold cache with the same failure
is fatal. -/
theorem getRoleConfig_stale_fallback_witness :
    getRoleConfig ⟨some ⟨"D", []⟩, 0⟩ 40 (.secretError "unavailable") =
      some (⟨"D", []⟩, ⟨some ⟨"D", []⟩, 0⟩) ∧
    getRoleConfig ⟨none, 0⟩ 40 (.secretError "unavailable") = none :=
  ⟨getRoleConfig_stale_fallback.2.1 ⟨some ⟨"D", []⟩, 0⟩ 40
      (.secretError "unavailable") ⟨"D", []⟩ rfl (by decide) rfl,
    getRoleConfig_stale_fallback.2.2 ⟨none, 0⟩ 40
      (.secretError "unavailable") rfl rfl⟩

/-! ## Credential cache key (`getBearerToken`) -/

/-- Cache-key construction from `getBearerToken`:
`rolesStr := strings.Join(userRoles, ",")`; the key is `userEmail` alone when
`roleID` is empty and `roleID:userEmail:rolesStr` otherwise. -/
def bearerTokenCacheKey (userEmail roleID : String) (userRoles : List String) :
    String :=
  let rolesStr := String.intercalate "," userRoles
  if roleID = "" then userEmail
  else roleID ++ ":" ++ userEmail ++ ":" ++ rolesStr

/-- Byte-wise (char-code) lexicographic comparison of strings, the order Go
`sort.Strings` uses; written out so it evaluates in the kernel. -/
def charListLe : List Char → List Char → Bool
  | [], _ => true
  | _ :: _, [] => false
  | a :: as, b :: bs =>
    if a.val < b.val then true
    else if b.val < a.val then false
    else charListLe as bs

/-- Lexicographic order on the underlying character lists. -/
def strLe (a b : String) : Bool := charListLe a.data b.data

/-- Insertion step of a stable sort over `strLe`. -/
def insertRole (x : String) : List String → List String
  | [] => [x]
  | y :: ys => if strLe x y then x :: y :: ys else y :: insertRole x ys

/-- Sorting of the caller roles, as the spec's `sortedJoin` requires. -/
def sortRoles : List String → List String
  | [] => []
  | x :: xs => insertRole x (sortRoles xs)

/-- The key as the spec describes it (`sortedJoin(callerExternalRoles)`):
identical to the code's key except that the roles are sorted before joining.
Used only to compare the code's key against the spec's wording. -/
def specCredentialCacheKey (userEmail roleID : String) (userRoles : List String) :
    String :=
  let rolesStr := String.intercalate "," (sortRoles userRoles)
  if roleID = "" then userEmail
  else roleID ++ ":" ++ userEmail ++ ":" ++ rolesStr

/-- **C6 counterexample.** The code joins the caller's roles in presented
order, not sorted: with identity `e`, role ID `r` and roles presented as
`[b, a]` the computed key is `r:e:b,a`, not the sorted `r:e:a,b` the claim
requires, and presenting the same role set in the two orders `[a,b]` and
`[b,a]` yields different keys. -/
theorem bearerTokenCacheKey_not_sorted :
    bearerTokenCacheKey "e" "r" ["b", "a"] ≠
      specCredentialCacheKey "e" "r" ["b", "a"] ∧
    bearerTokenCacheKey "e" "r" ["a", "b"] ≠
      bearerTokenCacheKey "e" "r" ["b", "a"] := by
  exact ⟨by decide, by decide⟩

/-- **C6 (amended).** The key is `roleID:userEmail:join(userRoles, ",")` with
the roles in presented order when `roleID` is non-empty, and `userEmail`
alone otherwise; it agrees with the spec's sorted-join key exactly when the
presented sequence is already sorted, and the same role set presented in
different orders can produce different keys. -/
theorem bearerTokenCacheKey_presented_order :
    (∀ (userEmail roleID : String) (userRoles : List String), roleID ≠ "" →
        bearerTokenCacheKey userEmail roleID userRoles =
          roleID ++ ":" ++ userEmail ++ ":" ++ String.intercalate "," userRoles) ∧
    (∀ (userEmail : String) (userRoles : List String),
        bearerTokenCacheKey userEmail "" userRoles = userEmail) ∧
    (∀ (userEmail roleID : String) (userRoles : List String),
        sortRoles userRoles = userRoles →
        bearerTokenCacheKey userEmail roleID userRoles =
          specCredentialCacheKey userEmail roleID userRoles) ∧
    bearerTokenCacheKey "e" "r" ["a", "b"] ≠
      bearerTokenCacheKey "e" "r" ["b", "a"] := by
  refine ⟨?_, ?_, ?_, ?_⟩
  · intro userEmail roleID userRoles h
    simp [bearerTokenCacheKey, h]
  · intro userEmail userRoles
    simp [bearerTokenCacheKey]
  · intro userEmail roleID userRoles hsorted
    unfold bearerTokenCacheKey specCredentialCacheKey
    rw [hsorted]
  · decide

/-- Witness for C6 (amended): applies the amended theorem at a non-empty role
ID and at an already sorted role list. -/
theorem bearerTokenCacheKey_presented_order_witness :
    bearerTokenCacheKey "e" "r" ["b", "a"] =
      "r" ++ ":" ++ "e" ++ ":" ++ String.intercalate "," ["b", "a"] ∧
    bearerTokenCacheKey "e" "r" ["a", "b"] =
      specCredentialCacheKey "e" "r" ["a", "b"] :=
  ⟨bearerTokenCacheKey_presented_order.1 "e" "r" ["b", "a"] (by decide),
    bearerTokenCacheKey_presented_order.2.2.1 "e" "r" ["a", "b"] (by decide)⟩

/-! ## Detokenize (`handleDetokenize`) -/

/-- A BigQuery call argument (`interface{}`): either a JSON string or any
non-string value (including `null`), which the `.(string)` assertions reject. -/
inductive BqVal where
  | str (s : String)
  | other
deriving DecidableEq

/-- `TokenParam`: token plus redaction level sent to `/detokenize`. -/
structure TokenParam where
  token : String
  redaction : String
deriving DecidableEq

/-- `DetokenizedRecord`: one record of the vault's detokenize reply; the
`Error interface{}` field is modelled as an optional message. -/
structure DetokenizedRecord where
  token : String
  valueType : String
  value : String
  error : Option String
deriving DecidableEq

/-- `DetokenizeResponse`: the vault's detokenize reply. -/
structure DetokenizeResponse where
  records : List DetokenizedRecord
deriving DecidableEq

/-- Parameter extraction of the detokenize processor: an empty call is
skipped (`continue`), leaving the zero-value parameter; otherwise the token
is the first element when it is a string (else `""`), and the redaction is
the second element when present and a string (else `"DEFAULT"`). -/
def mkTokenParam (call : List BqVal) : TokenParam :=
  match call with
  | [] => { token := "", redaction := "" }
  | first :: rest =>
    let tokenStr := match first with | .str s => s | .other => ""
    let redaction :=
      match rest with
      | [] => "DEFAULT"
      | second :: _ => match second with | .str s => s | .other => "DEFAULT"
    { token := tokenStr, redaction := redaction }

/-- The reply-mapping loop of the detokenize processor
(`for j := range batch { if j < len(resp.Records) { ... } }`): position `j`
is populated with the record's value exactly when a `j`-th record exists and
its error field is nil; otherwise it stays `nil`. -/
def detokenizeResultsFor (resp : DetokenizeResponse) (n : Nat) :
    List (Option String) :=
  (List.range n).map fun j =>
    match resp.records.get? j with
    | some r =>
      match r.error with
      | none => some r.value
      | some _ => none
    | none => none

/-- The detokenize batch processor: build the parameters, call the vault
(`vault` is the environment for `makeSkyflowAPIRequest`), and on failure
return an all-nil result slice of the batch's length with a nil error. -/
def detokenizeBatch (vault : List TokenParam → Except String DetokenizeResponse)
    (batch : List (List BqVal)) : Except String (List (Option String)) :=
  match vault (batch.map mkTokenParam) with
  | .error _ => .ok (List.replicate batch.length none)
  | .ok resp => .ok (detokenizeResultsFor resp batch.length)

/-- The (always-produced) result slice of the detokenize batch processor. -/
def detokenizeBatchPayload
    (vault : List TokenParam → Except String DetokenizeResponse)
    (batch : List (List BqVal)) : List (Option String) :=
  match vault (batch.map mkTokenParam) with
  | .error _ => List.replicate batch.length none
  | .ok resp => detokenizeResultsFor resp batch.length

/-- The reply sequence of `handleDetokenize`: the calls batched through
`batchProcessor` with the detokenize processor. -/
def handleDetokenizeReplies
    (vault : List TokenParam → Except String DetokenizeResponse)
    (calls : List (List BqVal)) (batchSize : Int) :
    Except String (List (Option String)) :=
  batchProcessor calls batchSize (detokenizeBatch vault)

theorem detokenizeBatch_eq_ok
    (vault : List TokenParam → Except String DetokenizeResponse)
    (batch : List (List BqVal)) :
    detokenizeBatch vault batch = .ok (detokenizeBatchPayload vault batch) := by
  unfold detokenizeBatch detokenizeBatchPayload
  cases vault (batch.map mkTokenParam) <;> rfl

/-- **C7.** `handleDetokenize` never propagates a per-batch vault failure:
the overall reply is always `ok` and equals the in-order concatenation of the
per-batch result slices (whose concatenated positions are exactly the
original call positions, since the chunks flatten back to the calls); a batch
whose vault call fails contributes an all-nil slice of its own length, while
a batch whose vault call succeeds contributes the populated slice derived
from the response. -/
theorem handleDetokenize_partial_failure :
    ∀ (vault : List TokenParam → Except String DetokenizeResponse)
      (calls : List (List BqVal)) (b : Int),
      handleDetokenizeReplies vault calls b =
        .ok ((chunksOf (effectiveBatchSize b) calls).map
          (detokenizeBatchPayload vault)).flatten ∧
      (chunksOf (effectiveBatchSize b) calls).flatten = calls ∧
      (∀ batch ∈ chunksOf (effectiveBatchSize b) calls,
        (∀ e, vault (batch.map mkTokenParam) = .error e →
          detokenizeBatchPayload vault batch =
            List.replicate batch.length none) ∧
        (∀ resp, vault (batch.map mkTokenParam) = .ok resp →
          detokenizeBatchPayload vault batch =
            detokenizeResultsFor resp batch.length)) := by
  intro vault calls b
  refine ⟨?_, chunksOf_flatten _ (effectiveBatchSize_pos b) calls, ?_⟩
  · unfold handleDetokenizeReplies batchProcessor
    exact runChunks_all_ok (detokenizeBatch vault) (detokenizeBatchPayload vault)
      _ (fun c _ => detokenizeBatch_eq_ok vault c)
  · intro batch _
    constructor
    · intro e he
      unfold detokenizeBatchPayload
      rw [he]
    · intro resp hr
      unfold detokenizeBatchPayload
      rw [hr]

/-- Concrete detokenize environment for the witnesses: the vault call fails
on two-token batches and otherwise detokenizes token `t` to value `v:t`. -/
def sampleDetokenizeVault (params : List TokenParam) :
    Except String DetokenizeResponse :=
  if params.length = 2 then .error "vault unavailable"
  else .ok ⟨params.map (fun p => ⟨p.token, "STRING", "v:" ++ p.token, none⟩)⟩

/-- Witness for C7: three calls batched with size 2; the first (two-call)
batch's vault call fails and yields two nil replies, the second succeeds and
yields a populated reply; the overall result is `ok`. -/
theorem handleDetokenize_partial_failure_witness :
    handleDetokenizeReplies sampleDetokenizeVault
        [[BqVal.str "t1"], [BqVal.str "t2"], [BqVal.str "t3"]] 2 =
      .ok [none, none, some "v:t3"] := by
  have h := handleDetokenize_partial_failure sampleDetokenizeVault
    [[BqVal.str "t1"], [BqVal.str "t2"], [BqVal.str "t3"]] 2
  rw [h.1]
  decide

/-- **C10.** The detokenize batch processor is total over arbitrary vault
replies: the produced result slice always has exactly the batch's length and
the processor itself never errors; for a successful reply, a position at or
beyond the reply's record count is nil, a position whose record carries a
non-nil error is nil, and a position whose record has a nil error carries the
record's value — reply slices shorter or longer than the batch cause no
out-of-range access. -/
theorem detokenizeBatch_total :
    ∀ (vault : List TokenParam → Except String DetokenizeResponse)
      (batch : List (List BqVal)),
      (detokenizeBatchPayload vault batch).length = batch.length ∧
      detokenizeBatch vault batch = .ok (detokenizeBatchPayload vault batch) ∧
      (∀ resp, vault (batch.map mkTokenParam) = .ok resp →
        ∀ j, j < batch.length →
          (resp.records.length ≤ j →
            (detokenizeBatchPayload vault batch).get? j = some none) ∧
          (∀ r, resp.records.get? j = some r →
            (r.error.isSome →
              (detokenizeBatchPayload vault batch).get? j = some none) ∧
            (r.error = none →
              (detokenizeBatchPayload vault batch).get? j =
                some (some r.value)))) := by
  intro vault batch
  refine ⟨?_, detokenizeBatch_eq_ok vault batch, ?_⟩
  · unfold detokenizeBatchPayload
    cases vault (batch.map mkTokenParam) with
    | error e => simp
    | ok resp => simp [detokenizeResultsFor]
  · intro resp hresp j hj
    have hpayload : detokenizeBatchPayload vault batch =
        detokenizeResultsFor resp batch.length := by
      unfold detokenizeBatchPayload
      rw [hresp]
    have hget : (detokenizeResultsFor resp batch.length).get? j =
        some (match resp.records.get? j with
          | some r =>
            match r.error with
            | none => some r.value
            | some _ => none
          | none => none) := by
      unfold detokenizeResultsFor
      rw [List.get?_map, List.get?_range hj]
      rfl
    constructor
    · intro hlen
      rw [hpayload, hget]
      rw [List.get?_eq_none.mpr hlen]
    · intro r hr
      constructor
      · intro herr
        rw [hpayload, hget, hr]
        obtain ⟨e, he⟩ := Option.isSome_iff_exists.mp herr
        simp [he]
      · intro herr
        rw [hpayload, hget, hr]
        simp [herr]

/-- Witness for C10: a two-call batch whose successful vault reply has only
one record, with a nil error: the result has length 2, position 0 is
populated and position 1 (beyond the reply) is nil. -/
theorem detokenizeBatch_total_witness :
    (detokenizeBatchPayload
        (fun _ => Except.ok ⟨[⟨"t1", "STRING", "v1", none⟩]⟩)
        [[BqVal.str "t1"], [BqVal.str "t2"]]).length = 2 ∧
    (detokenizeBatchPayload
        (fun _ => Except.ok ⟨[⟨"t1", "STRING", "v1", none⟩]⟩)
        [[BqVal.str "t1"], [BqVal.str "t2"]]).get? 1 = some none ∧
    (detokenizeBatchPayload
        (fun _ => Except.ok ⟨[⟨"t1", "STRING", "v1", none⟩]⟩)
        [[BqVal.str "t1"], [BqVal.str "t2"]]).get? 0 = some (some "v1") := by
  have h := detokenizeBatch_total
    (fun _ => Except.ok ⟨[⟨"t1", "STRING", "v1", none⟩]⟩)
    [[BqVal.str "t1"], [BqVal.str "t2"]]
  refine ⟨h.1, ?_, ?_⟩
  · exact (h.2.2 ⟨[⟨"t1", "STRING", "v1", none⟩]⟩ rfl 1 (by decide)).1 (by decide)
  · exact ((h.2.2 ⟨[⟨"t1", "STRING", "v1", none⟩]⟩ rfl 0 (by decide)).2
      ⟨"t1", "STRING", "v1", none⟩ rfl).2 rfl

/-! ## Tokenize table (`handleTokenizeTable`) -/

/-- `minPiiLength = 7`. -/
def minPiiLength : Nat := 7

/-- `Record`: fields map plus the table slot (which `handleTokenizeTable`
reuses to carry the column name). -/
structure Record where
  fields : List (String × String)
  table : String
deriving DecidableEq

/-- Association lookup modelling Go map indexing over the small literal maps
used here (`Fields["pii"]`, `Tokens["pii"]`). -/
def lookupField (k : String) : List (String × String) → Option String
  | [] => none
  | (k2, v) :: rest => if k2 = k then some v else lookupField k rest

/-- One cell of a BigQuery row: `none` is SQL `null`; `some s` is a non-null
value whose `fmt.Sprintf("%v", value)` rendering is `s`.  (Go indexes
`row[colIdx]` and would panic on a short row; rows of the executed query
always carry exactly the selected columns, so the out-of-range case is
totalized as null.) -/
def cellValue (row : List (Option String)) (colIdx : Nat) : Option String :=
  match row.get? colIdx with
  | some v => v
  | none => none

/-- The record-building loop of `handleTokenizeTable` over one row
(`for colIdx, column := range columnList`): null and empty values are
skipped, values shorter than `minPiiLength` bytes are skipped, and the rest
become `{Fields: {"pii": strValue}, Table: column}` records in column
order. -/
def rowRecordsAux (row : List (Option String)) : List (Nat × String) → List Record
  | [] => []
  | (colIdx, column) :: rest =>
    match cellValue row colIdx with
    | none => rowRecordsAux row rest
    | some strValue =>
      if strValue = "" then rowRecordsAux row rest
      else if strValue.utf8ByteSize < minPiiLength then rowRecordsAux row rest
      else { fields := [("pii", strValue)], table := column } :: rowRecordsAux row rest

/-- The records built from one row, with enumerated columns. -/
def rowRecords (columnList : List String) (row : List (Option String)) :
    List Record :=
  rowRecordsAux row columnList.enum

/-- The full record list sent to the batch processor
(`for _, row := range bqData { for colIdx, column := range columnList ... }`). -/
def buildRecords (bqData : List (List (Option String)))
    (columnList : List String) : List Record :=
  (bqData.map (rowRecords columnList)).flatten

/-- One record of the vault's bulk-tokenize reply. -/
structure SkyflowTokRecord where
  skyflowID : String
  tokens : List (String × String)
deriving DecidableEq

/-- The token-collection loop of `processBatch`
(`for i, record := range skyflowResp.Records { ... batch[i] ... }`): each
reply record with a `"pii"` token contributes
`(column, originalValue, token)` to the per-column token maps, where column
and original value come from `batch[i]`; a reply longer than the batch would
index out of range (`none` models that panic). -/
def batchTokenPairs (respRecords : List SkyflowTokRecord) (batch : List Record) :
    Option (List (String × String × String)) :=
  if batch.length < respRecords.length then none
  else
    some ((respRecords.zip batch).filterMap (fun rb =>
      match lookupField "pii" rb.1.tokens with
      | some tok =>
        some (rb.2.table, ((lookupField "pii" rb.2.fields).getD "", tok))
      | none => none))

theorem mem_rowRecordsAux {row : List (Option String)} :
    ∀ {cols : List (Nat × String)} {r : Record}, r ∈ rowRecordsAux row cols →
      ∃ v, r.fields = [("pii", v)] ∧ v ≠ "" ∧ minPiiLength ≤ v.utf8ByteSize := by
  intro cols
  induction cols with
  | nil => intro r h; simp [rowRecordsAux] at h
  | cons c rest ih =>
    intro r h
    match c with
    | (colIdx, column) =>
      unfold rowRecordsAux at h
      match hcell : cellValue row colIdx with
      | none =>
        simp only [hcell] at h
        exact ih h
      | some strValue =>
        simp only [hcell] at h
        by_cases hemp : strValue = ""
        · rw [if_pos hemp] at h
          exact ih h
        · rw [if_neg hemp] at h
          by_cases hshort : strValue.utf8ByteSize < minPiiLength
          · rw [if_pos hshort] at h
            exact ih h
          · rw [if_neg hshort] at h
            rcases List.mem_cons.mp h with h | h
            · subst h
              exact ⟨strValue, rfl, hemp, by omega⟩
            · exact ih h

theorem mem_buildRecords {bqData : List (List (Option String))}
    {columnList : List String} {r : Record}
    (h : r ∈ buildRecords bqData columnList) :
    ∃ v, r.fields = [("pii", v)] ∧ v ≠ "" ∧ minPiiLength ≤ v.utf8ByteSize := by
  unfold buildRecords at h
  obtain ⟨l, hl, hr⟩ := List.mem_flatten.mp h
  obtain ⟨row, _, hrow⟩ := List.mem_map.mp hl
  subst hrow
  exact mem_rowRecordsAux hr

/-- **C8.** Short-value exclusion in tokenize-table: every record built from
the fetched rows (and hence every record of every tokenize batch) carries a
`"pii"` value that is non-empty and at least `minPiiLength` (7) bytes long —
null, empty, and short cell values never become records; consequently every
`(column, originalValue, token)` pair the batches contribute to the update
statements has a non-empty original value of at least 7 bytes, so an
excluded value never appears in any warehouse UPDATE statement. -/
theorem tokenizeTable_short_values_excluded :
    (∀ (bqData : List (List (Option String))) (columnList : List String),
        ∀ r ∈ buildRecords bqData columnList,
          ∃ v, r.fields = [("pii", v)] ∧ v ≠ "" ∧
            minPiiLength ≤ v.utf8ByteSize) ∧
    (∀ (bqData : List (List (Option String))) (columnList : List String)
        (b : Int) (batch : List Record),
        batch ∈ chunksOf (effectiveBatchSize b) (buildRecords bqData columnList) →
        ∀ (respRecords : List SkyflowTokRecord)
          (pairs : List (String × String × String)),
          batchTokenPairs respRecords batch = some pairs →
          ∀ p ∈ pairs, p.2.1 ≠ "" ∧ minPiiLength ≤ p.2.1.utf8ByteSize) := by
  constructor
  · intro bqData columnList r hr
    exact mem_buildRecords hr
  · intro bqData columnList b batch hbatch respRecords pairs hpairs p hp
    unfold batchTokenPairs at hpairs
    by_cases hlen : batch.length < respRecords.length
    · rw [if_pos hlen] at hpairs
      cases hpairs
    · rw [if_neg hlen] at hpairs
      obtain hpairs := Option.some.inj hpairs
      subst hpairs
      obtain ⟨rb, hrb, hmk⟩ := List.mem_filterMap.mp hp
      match hlu : lookupField "pii" rb.1.tokens with
      | none => rw [hlu] at hmk; cases hmk
      | some tok =>
        rw [hlu] at hmk
        obtain hmk := Option.some.inj hmk
        subst hmk
        have hrec : rb.2 ∈ batch := (List.of_mem_zip hrb).2
        have hmem : rb.2 ∈ buildRecords bqData columnList :=
          mem_of_mem_chunksOf hbatch hrec
        obtain ⟨v, hf, hne, hlong⟩ := mem_buildRecords hmem
        have : lookupField "pii" rb.2.fields = some v := by
          rw [hf]
          simp [lookupField]
        simp only [this, Option.getD_some]
        exact ⟨hne, hlong⟩

/-- Witness for C8: one row with a long value, a short value, a null and an
empty value produces exactly one record (the long value, which is 7 bytes),
and via a one-record vault reply produces exactly a pair whose original
value is the long one. -/
theorem tokenizeTable_short_values_excluded_witness :
    (⟨[("pii", "1234567")], "c1"⟩ : Record) ∈
      buildRecords [[some "1234567", some "abc", none, some ""]]
        ["c1", "c2", "c3", "c4"] ∧
    (∃ v, (⟨[("pii", "1234567")], "c1"⟩ : Record).fields = [("pii", v)] ∧
      v ≠ "" ∧ minPiiLength ≤ v.utf8ByteSize) ∧
    ("1234567" : String) ≠ "" ∧
    minPiiLength ≤ ("1234567" : String).utf8ByteSize := by
  refine ⟨by decide, ?_, ?_⟩
  · exact tokenizeTable_short_values_excluded.1
      [[some "1234567", some "abc", none, some ""]] ["c1", "c2", "c3", "c4"]
      ⟨[("pii", "1234567")], "c1"⟩ (by decide)
  · exact (tokenizeTable_short_values_excluded.2
      [[some "1234567", some "abc", none, some ""]] ["c1", "c2", "c3", "c4"]
      25 [⟨[("pii", "1234567")], "c1"⟩] (by decide)
      [⟨"id1", [("pii", "tok1")]⟩] [("c1", ("1234567", "tok1"))] (by decide)
      ("c1", ("1234567", "tok1")) (by decide))

/-! ## Tokenize single value (`handleTokenizeValue`), sequential path -/

/-- Whether `pat` occurs at the head of `s` (character lists). -/
def leadsWith : List Char → List Char → Bool
  | [], _ => true
  | _ :: _, [] => false
  | p :: ps, x :: xs => p = x && leadsWith ps xs

/-- Whether `s` contains `pat` as a contiguous subsequence: a computable
model of `strings.Contains`. -/
def containsSeq : List Char → List Char → Bool
  | s, [] =>
    match s with
    | _ => true
  | [], _ :: _ => false
  | x :: xs, p :: ps =>
    if leadsWith (p :: ps) (x :: xs) then true else containsSeq xs (p :: ps)

/-- `strings.Contains(s, pat)`. -/
def strContains (s pat : String) : Bool := containsSeq s.data pat.data

/-- One record of the vault's `/tokenize` reply. -/
structure TokRecord where
  token : String
deriving DecidableEq

/-- `TokenizeValueResponse`. -/
structure TokenizeValueResponse where
  records : List TokRecord
deriving DecidableEq

/-- Observable outcome of one sequential `handleTokenizeValue` call:
the BigQuery replies, the returned error, the in-flight registry afterwards,
the number of remote tokenize calls made, and whether the call ever stored a
promise in the registry. -/
structure TokenizeValueOutcome where
  replies : List String
  err : Option String
  registry : List String
  vaultCalls : Nat
  stored : Bool
deriving DecidableEq

/-- `handleTokenizeValue` from the source, run to completion without
interleaving: an empty value short-circuits before `LoadOrStore`; a value
already in flight waits on the existing promise (whose fixed result is the
`inflight` environment); otherwise this call wins the insert, makes the one
remote call, and `completeTokenPromise` sets the result, signals, and deletes
the entry (so the registry is restored, with `stored` recording that an entry
existed during the flight).  A `404` in the error text yields an empty token
with a nil error; an empty record list is an error; otherwise the first
record's token is returned. -/
def handleTokenizeValueSeq (reg : List String)
    (vault : String → Except String TokenizeValueResponse)
    (inflight : String × Option String) (value : String) :
    TokenizeValueOutcome :=
  if value = "" then ⟨[value], none, reg, 0, false⟩
  else if value ∈ reg then
    ⟨[inflight.1], inflight.2, reg, 0, false⟩
  else
    match vault value with
    | .error e =>
      if strContains e "404" then ⟨[""], none, reg, 1, true⟩
      else ⟨[""], some e, reg, 1, true⟩
    | .ok resp =>
      match resp.records with
      | [] => ⟨[""], some "no records in response", reg, 1, true⟩
      | r :: _ => ⟨[r.token], none, reg, 1, true⟩

/-- **C9.** `tokenizeValue("")` returns `("", nil)` with no remote call and
without ever creating a promise-registry entry; and when the remote call
fails with an error whose text contains `404`, the call returns an empty
token with a nil error instead of propagating the failure. -/
theorem tokenizeValue_empty_and_notfound :
    (∀ (reg : List String)
        (vault : String → Except String TokenizeValueResponse)
        (inflight : String × Option String),
        handleTokenizeValueSeq reg vault inflight "" =
          ⟨[""], none, reg, 0, false⟩) ∧
    (∀ (reg : List String)
        (vault : String → Except String TokenizeValueResponse)
        (inflight : String × Option String) (value e : String),
        value ≠ "" → value ∉ reg → vault value = .error e →
        strContains e "404" = true →
        handleTokenizeValueSeq reg vault inflight value =
          ⟨[""], none, reg, 1, true⟩) := by
  constructor
  · intro reg vault inflight
    rfl
  · intro reg vault inflight value e hne hreg hvault h404
    unfold handleTokenizeValueSeq
    rw [if_neg hne, if_neg hreg]
    simp only [hvault, h404, if_true]

/-- Witness for C9: the empty value on a concrete registry and vault, and a
vault failing with a `404` status text on a fresh value. -/
theorem tokenizeValue_empty_and_notfound_witness :
    handleTokenizeValueSeq ["other"]
        (fun _ => Except.error "unexpected status code 404: not found")
        ("tok", none) "" = ⟨[""], none, ["other"], 0, false⟩ ∧
    handleTokenizeValueSeq ["other"]
        (fun _ => Except.error "unexpected status code 404: not found")
        ("tok", none) "abcdefg" = ⟨[""], none, ["other"], 1, true⟩ :=
  ⟨tokenizeValue_empty_and_notfound.1 ["other"]
      (fun _ => Except.error "unexpected status code 404: not found")
      ("tok", none),
    tokenizeValue_empty_and_notfound.2 ["other"]
      (fun _ => Except.error "unexpected status code 404: not found")
      ("tok", none) "abcdefg" "unexpected status code 404: not found"
      (by decide) (by decide) rfl (by decide)⟩

/-! ## Single-flight deduplication (`handleTokenizeValue` under concurrency)

The non-empty-value path of `handleTokenizeValue` is modelled as a small-step
transition system: `n` request threads race for one fixed value.  Each step
is one atomic action of the Go code: the `LoadOrStore` on the `sync.Map`, the
remote tokenize call (whose processed result — the arguments the winner
passes to `completeTokenPromise` — is the environment `vres`, indexed by call
number), the promise-field write, the `close(done)`, the `Delete`, and a
waiter's `<-p.done` followed by its read of the fixed result.  The registry
entry for the value is `entry` (holding the generation number of the stored
promise); `prom` holds the promise objects by generation. -/

/-- `tokenPromise`: the `token`/`err` fields plus whether `done` is closed. -/
structure Promise where
  token : String
  errMsg : Option String
  closed : Bool
deriving DecidableEq

/-- A freshly allocated promise (`&tokenPromise{done: make(chan struct{})}`). -/
def Promise.init : Promise := ⟨"", none, false⟩

/-- Program counter of one request thread: about to `LoadOrStore`; winner
about to make the remote call / write the result fields / `close(done)` /
`Delete` the entry; waiter blocked on `done`; or returned with its result. -/
inductive ThreadPC where
  | start
  | winCall (g : Nat)
  | winSet (g : Nat) (token : String) (errMsg : Option String)
  | winClose (g : Nat) (token : String) (errMsg : Option String)
  | winDelete (g : Nat) (token : String) (errMsg : Option String)
  | waiting (g : Nat)
  | finished (token : String) (errMsg : Option String)
deriving DecidableEq

/-- The generation a thread is the in-flight winner for, if any. -/
def winnerGen : ThreadPC → Option Nat
  | .winCall g => some g
  | .winSet g _ _ => some g
  | .winClose g _ _ => some g
  | .winDelete g _ _ => some g
  | _ => none

/-- Global state: the thread array, the registry entry for the value (the
generation of the stored promise, if present), the next fresh generation,
the promise objects, and the number of remote calls made so far. -/
structure SFState (n : Nat) where
  threads : Fin n → ThreadPC
  entry : Option Nat
  nextGen : Nat
  prom : Nat → Promise
  calls : Nat

/-- Initial state: every thread about to execute its `LoadOrStore`. -/
def SFState.init (n : Nat) : SFState n :=
  ⟨fun _ => .start, none, 0, fun _ => Promise.init, 0⟩

/-- One atomic step of thread `t`.  `vres k` is the `(token, err)` pair the
`k`-th remote call's processing passes to `completeTokenPromise` (covering
the success, 404, empty-records and failure branches alike). -/
def sfStep (vres : Nat → String × Option String) (st : SFState n) (t : Fin n) :
    SFState n :=
  match st.threads t with
  | .start =>
    match st.entry with
    | some g => { st with threads := Function.update st.threads t (.waiting g) }
    | none =>
      { st with
        threads := Function.update st.threads t (.winCall st.nextGen),
        entry := some st.nextGen,
        nextGen := st.nextGen + 1 }
  | .winCall g =>
    { st with
      calls := st.calls + 1,
      threads := Function.update st.threads t
        (.winSet g (vres st.calls).1 (vres st.calls).2) }
  | .winSet g tok e =>
    { st with
      prom := Function.update st.prom g { st.prom g with token := tok, errMsg := e },
      threads := Function.update st.threads t (.winClose g tok e) }
  | .winClose g tok e =>
    { st with
      prom := Function.update st.prom g { st.prom g with closed := true },
      threads := Function.update st.threads t (.winDelete g tok e) }
  | .winDelete g tok e =>
    { st with
      entry := none,
      threads := Function.update st.threads t (.finished tok e) }
  | .waiting g =>
    if (st.prom g).closed then
      { st with
        threads := Function.update st.threads t
          (.finished (st.prom g).token (st.prom g).errMsg) }
    else st
  | .finished _ _ => st

/-- Run a schedule (a list of thread indices; a step of a blocked waiter is a
no-op, so every schedule is executable). -/
def sfRun (vres : Nat → String × Option String) (st : SFState n) :
    List (Fin n) → SFState n
  | [] => st
  | t :: s => sfRun vres (sfStep vres st t) s

/-- The schedules under which the `N` requests are concurrent: no thread
executes its `LoadOrStore` after the in-flight promise's registry entry has
been deleted (`entry = none ∧ nextGen ≠ 0` marks the post-delete state).  A
later `LoadOrStore` would start a fresh, independent flight — a sequential
re-request, not one of the N concurrent requests. -/
def sfValidSched (vres : Nat → String × Option String) (st : SFState n) :
    List (Fin n) → Bool
  | [] => true
  | t :: s =>
    (decide (st.threads t ≠ .start) || st.entry.isSome || decide (st.nextGen = 0)) &&
    sfValidSched vres (sfStep vres st t) s

/-- Reachability invariant of the single-flight system under valid
schedules. -/
structure SFInv (vres : Nat → String × Option String) (st : SFState n) : Prop where
  nextGen_le : st.nextGen ≤ 1
  cold : st.nextGen = 0 →
    st.entry = none ∧ st.calls = 0 ∧ (∀ t, st.threads t = .start) ∧
    st.prom 0 = Promise.init
  entry_gen : ∀ g, st.entry = some g → g = 0
  waiting_gen : ∀ t g, st.threads t = .waiting g → g = 0 ∧ st.nextGen = 1
  winner_gen : ∀ t g, winnerGen (st.threads t) = some g → g = 0 ∧ st.nextGen = 1
  winner_unique : ∀ t u, (winnerGen (st.threads t)).isSome →
    (winnerGen (st.threads u)).isSome → t = u
  no_winner_no_entry : st.entry = none → ∀ t, winnerGen (st.threads t) = none
  calls_le : st.calls ≤ 1
  winCall_state : ∀ t g, st.threads t = .winCall g →
    st.calls = 0 ∧ (st.prom 0).closed = false
  winSet_state : ∀ t g tok e, st.threads t = .winSet g tok e →
    st.calls = 1 ∧ (tok, e) = vres 0 ∧ (st.prom 0).closed = false
  winClose_state : ∀ t g tok e, st.threads t = .winClose g tok e →
    st.calls = 1 ∧ (tok, e) = vres 0 ∧ (st.prom 0).closed = false ∧
    (st.prom 0).token = tok ∧ (st.prom 0).errMsg = e
  winDelete_state : ∀ t g tok e, st.threads t = .winDelete g tok e →
    st.calls = 1 ∧ (tok, e) = vres 0 ∧ (st.prom 0).closed = true ∧
    (st.prom 0).token = tok ∧ (st.prom 0).errMsg = e
  closed_state : (st.prom 0).closed = true →
    (st.prom 0).token = (vres 0).1 ∧ (st.prom 0).errMsg = (vres 0).2 ∧
    st.calls = 1
  finished_state : ∀ t tok e, st.threads t = .finished tok e →
    (tok, e) = vres 0 ∧ st.calls = 1
  post_delete : st.entry = none → st.nextGen = 1 → (st.prom 0).closed = true

theorem sfInv_init (vres : Nat → String × Option String) (n : Nat) :
    SFInv vres (SFState.init n) := by
  refine ⟨?_, ?_, ?_, ?_, ?_, ?_, ?_, ?_, ?_, ?_, ?_, ?_, ?_, ?_, ?_⟩ <;>
    simp [SFState.init, winnerGen, Promise.init]

theorem sfInv_step (vres : Nat → String × Option String) (st : SFState n)
    (t : Fin n) (hinv : SFInv vres st)
    (hvalid : st.threads t = .start → (st.entry.isSome ∨ st.nextGen = 0)) :
    SFInv vres (sfStep vres st t) := by
  cases hpc : st.threads t with
  | start =>
    cases hentry : st.entry with
    | some g =>
      have hstep : sfStep vres st t =
          { st with threads := Function.update st.threads t (.waiting g) } := by
        unfold sfStep
        rw [hpc, hentry]
      rw [hstep]
      have hg0 : g = 0 := hinv.entry_gen g hentry
      have hng : st.nextGen = 1 := by
        have hle := hinv.nextGen_le
        by_cases h0 : st.nextGen = 0
        · have := (hinv.cold h0).1
          rw [this] at hentry
          cases hentry
        · omega
      refine ⟨?_, ?_, ?_, ?_, ?_, ?_, ?_, ?_, ?_, ?_, ?_, ?_, ?_, ?_, ?_⟩ <;>
        dsimp only
      · exact hinv.nextGen_le
      · intro h
        exact absurd h (by omega)
      · exact hinv.entry_gen
      · intro u g2 hu
        by_cases hut : u = t
        · subst hut
          rw [Function.update_same] at hu
          injection hu with hgg
          exact ⟨by rw [← hgg]; exact hg0, hng⟩
        · rw [Function.update_noteq hut] at hu
          exact hinv.waiting_gen u g2 hu
      · intro u g2 hu
        by_cases hut : u = t
        · subst hut
          rw [Function.update_same] at hu
          simp [winnerGen] at hu
        · rw [Function.update_noteq hut] at hu
          exact hinv.winner_gen u g2 hu
      · intro u v hu hv
        by_cases hut : u = t
        · subst hut
          rw [Function.update_same] at hu
          simp [winnerGen] at hu
        · rw [Function.update_noteq hut] at hu
          by_cases hvt : v = t
          · subst hvt
            rw [Function.update_same] at hv
            simp [winnerGen] at hv
          · rw [Function.update_noteq hvt] at hv
            exact hinv.winner_unique u v hu hv
      · intro h
        rw [hentry] at h
        cases h
      · exact hinv.calls_le
      · intro u g2 hu
        by_cases hut : u = t
        · subst hut
          rw [Function.update_same] at hu
          cases hu
        · rw [Function.update_noteq hut] at hu
          exact hinv.winCall_state u g2 hu
      · intro u g2 tok e hu
        by_cases hut : u = t
        · subst hut
          rw [Function.update_same] at hu
          cases hu
        · rw [Function.update_noteq hut] at hu
          exact hinv.winSet_state u g2 tok e hu
      · intro u g2 tok e hu
        by_cases hut : u = t
        · subst hut
          rw [Function.update_same] at hu
          cases hu
        · rw [Function.update_noteq hut] at hu
          exact hinv.winClose_state u g2 tok e hu
      · intro u g2 tok e hu
        by_cases hut : u = t
        · subst hut
          rw [Function.update_same] at hu
          cases hu
        · rw [Function.update_noteq hut] at hu
          exact hinv.winDelete_state u g2 tok e hu
      · exact hinv.closed_state
      · intro u tok e hu
        by_cases hut : u = t
        · subst hut
          rw [Function.update_same] at hu
          cases hu
        · rw [Function.update_noteq hut] at hu
          exact hinv.finished_state u tok e hu
      · intro h
        rw [hentry] at h
        cases h
    | none =>
      have hstep : sfStep vres st t =
          { st with
            threads := Function.update st.threads t (.winCall st.nextGen),
            entry := some st.nextGen,
            nextGen := st.nextGen + 1 } := by
        unfold sfStep
        rw [hpc, hentry]
      rw [hstep]
      have h0 : st.nextGen = 0 := by
        rcases hvalid hpc with h | h
        · rw [hentry] at h
          cases h
        · exact h
      obtain ⟨-, hcalls0, hall, hprom0⟩ := hinv.cold h0
      refine ⟨?_, ?_, ?_, ?_, ?_, ?_, ?_, ?_, ?_, ?_, ?_, ?_, ?_, ?_, ?_⟩ <;>
        dsimp only
      · omega
      · intro h
        omega
      · intro g2 h
        injection h with h2
        omega
      · intro u g2 hu
        by_cases hut : u = t
        · subst hut
          rw [Function.update_same] at hu
          cases hu
        · rw [Function.update_noteq hut] at hu
          rw [hall u] at hu
          cases hu
      · intro u g2 hu
        by_cases hut : u = t
        · subst hut
          rw [Function.update_same] at hu
          simp only [winnerGen, Option.some.injEq] at hu
          omega
        · rw [Function.update_noteq hut] at hu
          rw [hall u] at hu
          simp [winnerGen] at hu
      · intro u v hu hv
        by_cases hut : u = t
        · by_cases hvt : v = t
          · rw [hut, hvt]
          · exfalso
            rw [Function.update_noteq hvt, hall v] at hv
            simp [winnerGen] at hv
        · exfalso
          rw [Function.update_noteq hut, hall u] at hu
          simp [winnerGen] at hu
      · intro h
        cases h
      · omega
      · intro u g2 hu
        by_cases hut : u = t
        · subst hut
          constructor
          · exact hcalls0
          · rw [hprom0]
            rfl
        · rw [Function.update_noteq hut] at hu
          rw [hall u] at hu
          cases hu
      · intro u g2 tok e hu
        by_cases hut : u = t
        · subst hut
          rw [Function.update_same] at hu
          cases hu
        · rw [Function.update_noteq hut] at hu
          rw [hall u] at hu
          cases hu
      · intro u g2 tok e hu
        by_cases hut : u = t
        · subst hut
          rw [Function.update_same] at hu
          cases hu
        · rw [Function.update_noteq hut] at hu
          rw [hall u] at hu
          cases hu
      · intro u g2 tok e hu
        by_cases hut : u = t
        · subst hut
          rw [Function.update_same] at hu
          cases hu
        · rw [Function.update_noteq hut] at hu
          rw [hall u] at hu
          cases hu
      · intro h
        rw [hprom0] at h
        cases h
      · intro u tok e hu
        by_cases hut : u = t
        · subst hut
          rw [Function.update_same] at hu
          cases hu
        · rw [Function.update_noteq hut] at hu
          rw [hall u] at hu
          cases hu
      · intro h
        cases h
  | winCall g =>
    obtain ⟨hg0, hng⟩ := hinv.winner_gen t g (by rw [hpc]; rfl)
    obtain ⟨hcalls0, hclosed⟩ := hinv.winCall_state t g hpc
    have hentrysome : st.entry ≠ none := by
      intro h
      have := hinv.no_winner_no_entry h t
      rw [hpc] at this
      simp [winnerGen] at this
    have hstep : sfStep vres st t =
        { st with
          calls := st.calls + 1,
          threads := Function.update st.threads t
            (.winSet g (vres st.calls).1 (vres st.calls).2) } := by
      unfold sfStep
      rw [hpc]
    rw [hstep]
    refine ⟨?_, ?_, ?_, ?_, ?_, ?_, ?_, ?_, ?_, ?_, ?_, ?_, ?_, ?_, ?_⟩ <;>
      dsimp only
    · exact hinv.nextGen_le
    · intro h
      omega
    · exact hinv.entry_gen
    · intro u g2 hu
      by_cases hut : u = t
      · subst hut
        rw [Function.update_same] at hu
        cases hu
      · rw [Function.update_noteq hut] at hu
        exact hinv.waiting_gen u g2 hu
    · intro u g2 hu
      by_cases hut : u = t
      · subst hut
        rw [Function.update_same] at hu
        simp only [winnerGen, Option.some.injEq] at hu
        exact ⟨by rw [← hu]; exact hg0, hng⟩
      · rw [Function.update_noteq hut] at hu
        exact hinv.winner_gen u g2 hu
    · intro u v hu hv
      by_cases hut : u = t
      · by_cases hvt : v = t
        · rw [hut, hvt]
        · exfalso
          rw [Function.update_noteq hvt] at hv
          exact hvt (hinv.winner_unique v t hv (by rw [hpc]; simp [winnerGen]))
      · exfalso
        rw [Function.update_noteq hut] at hu
        exact hut (hinv.winner_unique u t hu (by rw [hpc]; simp [winnerGen]))
    · intro h
      exact absurd h hentrysome
    · omega
    · intro u g2 hu
      by_cases hut : u = t
      · subst hut
        rw [Function.update_same] at hu
        cases hu
      · rw [Function.update_noteq hut] at hu
        exfalso
        exact hut (hinv.winner_unique u t (by rw [hu]; simp [winnerGen])
          (by rw [hpc]; simp [winnerGen]))
    · intro u g2 tok e hu
      by_cases hut : u = t
      · subst hut
        rw [Function.update_same] at hu
        injection hu with h1 h2 h3
        refine ⟨by omega, ?_, hclosed⟩
        rw [← h2, ← h3, hcalls0]
      · rw [Function.update_noteq hut] at hu
        exfalso
        exact hut (hinv.winner_unique u t (by rw [hu]; simp [winnerGen])
          (by rw [hpc]; simp [winnerGen]))
    · intro u g2 tok e hu
      by_cases hut : u = t
      · subst hut
        rw [Function.update_same] at hu
        cases hu
      · rw [Function.update_noteq hut] at hu
        exfalso
        exact hut (hinv.winner_unique u t (by rw [hu]; simp [winnerGen])
          (by rw [hpc]; simp [winnerGen]))
    · intro u g2 tok e hu
      by_cases hut : u = t
      · subst hut
        rw [Function.update_same] at hu
        cases hu
      · rw [Function.update_noteq hut] at hu
        exfalso
        exact hut (hinv.winner_unique u t (by rw [hu]; simp [winnerGen])
          (by rw [hpc]; simp [winnerGen]))
    · intro h
      rw [hclosed] at h
      cases h
    · intro u tok e hu
      by_cases hut : u = t
      · subst hut
        rw [Function.update_same] at hu
        cases hu
      · rw [Function.update_noteq hut] at hu
        have := (hinv.finished_state u tok e hu).2
        omega
    · intro h
      exact absurd h hentrysome
  | winSet g tok e =>
    obtain ⟨hg0, hng⟩ := hinv.winner_gen t g (by rw [hpc]; rfl)
    subst hg0
    obtain ⟨hcalls1, hres, hclosed⟩ := hinv.winSet_state t 0 tok e hpc
    have hentrysome : st.entry ≠ none := by
      intro h
      have := hinv.no_winner_no_entry h t
      rw [hpc] at this
      simp [winnerGen] at this
    have hstep : sfStep vres st t =
        { st with
          prom := Function.update st.prom 0
            { st.prom 0 with token := tok, errMsg := e },
          threads := Function.update st.threads t (.winClose 0 tok e) } := by
      unfold sfStep
      rw [hpc]
    rw [hstep]
    refine ⟨?_, ?_, ?_, ?_, ?_, ?_, ?_, ?_, ?_, ?_, ?_, ?_, ?_, ?_, ?_⟩ <;>
      dsimp only
    · exact hinv.nextGen_le
    · intro h
      omega
    · exact hinv.entry_gen
    · intro u g2 hu
      by_cases hut : u = t
      · subst hut
        rw [Function.update_same] at hu
        cases hu
      · rw [Function.update_noteq hut] at hu
        exact hinv.waiting_gen u g2 hu
    · intro u g2 hu
      by_cases hut : u = t
      · subst hut
        rw [Function.update_same] at hu
        simp only [winnerGen, Option.some.injEq] at hu
        exact ⟨by omega, hng⟩
      · rw [Function.update_noteq hut] at hu
        exact hinv.winner_gen u g2 hu
    · intro u v hu hv
      by_cases hut : u = t
      · by_cases hvt : v = t
        · rw [hut, hvt]
        · exfalso
          rw [Function.update_noteq hvt] at hv
          exact hvt (hinv.winner_unique v t hv (by rw [hpc]; simp [winnerGen]))
      · exfalso
        rw [Function.update_noteq hut] at hu
        exact hut (hinv.winner_unique u t hu (by rw [hpc]; simp [winnerGen]))
    · intro h
      exact absurd h hentrysome
    · exact hinv.calls_le
    · intro u g2 hu
      by_cases hut : u = t
      · subst hut
        rw [Function.update_same] at hu
        cases hu
      · rw [Function.update_noteq hut] at hu
        exfalso
        exact hut (hinv.winner_unique u t (by rw [hu]; simp [winnerGen])
          (by rw [hpc]; simp [winnerGen]))
    · intro u g2 tok2 e2 hu
      by_cases hut : u = t
      · subst hut
        rw [Function.update_same] at hu
        cases hu
      · rw [Function.update_noteq hut] at hu
        exfalso
        exact hut (hinv.winner_unique u t (by rw [hu]; simp [winnerGen])
          (by rw [hpc]; simp [winnerGen]))
    · intro u g2 tok2 e2 hu
      by_cases hut : u = t
      · subst hut
        rw [Function.update_same] at hu
        injection hu with h1 h2 h3
        subst h2
        subst h3
        refine ⟨hcalls1, hres, ?_, ?_, ?_⟩
        · rw [Function.update_same]
          exact hclosed
        · rw [Function.update_same]
        · rw [Function.update_same]
      · rw [Function.update_noteq hut] at hu
        exfalso
        exact hut (hinv.winner_unique u t (by rw [hu]; simp [winnerGen])
          (by rw [hpc]; simp [winnerGen]))
    · intro u g2 tok2 e2 hu
      by_cases hut : u = t
      · subst hut
        rw [Function.update_same] at hu
        cases hu
      · rw [Function.update_noteq hut] at hu
        exfalso
        exact hut (hinv.winner_unique u t (by rw [hu]; simp [winnerGen])
          (by rw [hpc]; simp [winnerGen]))
    · intro h
      rw [Function.update_same] at h
      have h2 : (st.prom 0).closed = true := h
      rw [hclosed] at h2
      cases h2
    · intro u tok2 e2 hu
      by_cases hut : u = t
      · subst hut
        rw [Function.update_same] at hu
        cases hu
      · rw [Function.update_noteq hut] at hu
        exact hinv.finished_state u tok2 e2 hu
    · intro h
      exact absurd h hentrysome
  | winClose g tok e =>
    obtain ⟨hg0, hng⟩ := hinv.winner_gen t g (by rw [hpc]; rfl)
    subst hg0
    obtain ⟨hcalls1, hres, hclosed, htok, herr⟩ :=
      hinv.winClose_state t 0 tok e hpc
    have hentrysome : st.entry ≠ none := by
      intro h
      have := hinv.no_winner_no_entry h t
      rw [hpc] at this
      simp [winnerGen] at this
    have hstep : sfStep vres st t =
        { st with
          prom := Function.update st.prom 0 { st.prom 0 with closed := true },
          threads := Function.update st.threads t (.winDelete 0 tok e) } := by
      unfold sfStep
      rw [hpc]
    rw [hstep]
    refine ⟨?_, ?_, ?_, ?_, ?_, ?_, ?_, ?_, ?_, ?_, ?_, ?_, ?_, ?_, ?_⟩ <;>
      dsimp only
    · exact hinv.nextGen_le
    · intro h
      omega
    · exact hinv.entry_gen
    · intro u g2 hu
      by_cases hut : u = t
      · subst hut
        rw [Function.update_same] at hu
        cases hu
      · rw [Function.update_noteq hut] at hu
        exact hinv.waiting_gen u g2 hu
    · intro u g2 hu
      by_cases hut : u = t
      · subst hut
        rw [Function.update_same] at hu
        simp only [winnerGen, Option.some.injEq] at hu
        exact ⟨by omega, hng⟩
      · rw [Function.update_noteq hut] at hu
        exact hinv.winner_gen u g2 hu
    · intro u v hu hv
      by_cases hut : u = t
      · by_cases hvt : v = t
        · rw [hut, hvt]
        · exfalso
          rw [Function.update_noteq hvt] at hv
          exact hvt (hinv.winner_unique v t hv (by rw [hpc]; simp [winnerGen]))
      · exfalso
        rw [Function.update_noteq hut] at hu
        exact hut (hinv.winner_unique u t hu (by rw [hpc]; simp [winnerGen]))
    · intro h
      exact absurd h hentrysome
    · exact hinv.calls_le
    · intro u g2 hu
      by_cases hut : u = t
      · subst hut
        rw [Function.update_same] at hu
        cases hu
      · rw [Function.update_noteq hut] at hu
        exfalso
        exact hut (hinv.winner_unique u t (by rw [hu]; simp [winnerGen])
          (by rw [hpc]; simp [winnerGen]))
    · intro u g2 tok2 e2 hu
      by_cases hut : u = t
      · subst hut
        rw [Function.update_same] at hu
        cases hu
      · rw [Function.update_noteq hut] at hu
        exfalso
        exact hut (hinv.winner_unique u t (by rw [hu]; simp [winnerGen])
          (by rw [hpc]; simp [winnerGen]))
    · intro u g2 tok2 e2 hu
      by_cases hut : u = t
      · subst hut
        rw [Function.update_same] at hu
        cases hu
      · rw [Function.update_noteq hut] at hu
        exfalso
        exact hut (hinv.winner_unique u t (by rw [hu]; simp [winnerGen])
          (by rw [hpc]; simp [winnerGen]))
    · intro u g2 tok2 e2 hu
      by_cases hut : u = t
      · subst hut
        rw [Function.update_same] at hu
        injection hu with h1 h2 h3
        subst h2
        subst h3
        refine ⟨hcalls1, hres, ?_, ?_, ?_⟩
        · rw [Function.update_same]
        · rw [Function.update_same]
          exact htok
        · rw [Function.update_same]
          exact herr
      · rw [Function.update_noteq hut] at hu
        exfalso
        exact hut (hinv.winner_unique u t (by rw [hu]; simp [winnerGen])
          (by rw [hpc]; simp [winnerGen]))
    · intro h
      rw [Function.update_same]
      have h1 : tok = (vres 0).1 := by rw [← hres]
      have h2 : e = (vres 0).2 := by rw [← hres]
      exact ⟨by rw [← h1]; exact htok, by rw [← h2]; exact herr, hcalls1⟩
    · intro u tok2 e2 hu
      by_cases hut : u = t
      · subst hut
        rw [Function.update_same] at hu
        cases hu
      · rw [Function.update_noteq hut] at hu
        exact hinv.finished_state u tok2 e2 hu
    · intro h
      exact absurd h hentrysome
  | winDelete g tok e =>
    obtain ⟨hg0, hng⟩ := hinv.winner_gen t g (by rw [hpc]; rfl)
    subst hg0
    obtain ⟨hcalls1, hres, hclosed, htok, herr⟩ :=
      hinv.winDelete_state t 0 tok e hpc
    have hstep : sfStep vres st t =
        { st with
          entry := none,
          threads := Function.update st.threads t (.finished tok e) } := by
      unfold sfStep
      rw [hpc]
    rw [hstep]
    refine ⟨?_, ?_, ?_, ?_, ?_, ?_, ?_, ?_, ?_, ?_, ?_, ?_, ?_, ?_, ?_⟩ <;>
      dsimp only
    · exact hinv.nextGen_le
    · intro h
      omega
    · intro g2 h
      cases h
    · intro u g2 hu
      by_cases hut : u = t
      · subst hut
        rw [Function.update_same] at hu
        cases hu
      · rw [Function.update_noteq hut] at hu
        exact hinv.waiting_gen u g2 hu
    · intro u g2 hu
      by_cases hut : u = t
      · subst hut
        rw [Function.update_same] at hu
        simp [winnerGen] at hu
      · rw [Function.update_noteq hut] at hu
        exact hinv.winner_gen u g2 hu
    · intro u v hu hv
      by_cases hut : u = t
      · subst hut
        rw [Function.update_same] at hu
        simp [winnerGen] at hu
      · rw [Function.update_noteq hut] at hu
        by_cases hvt : v = t
        · subst hvt
          rw [Function.update_same] at hv
          simp [winnerGen] at hv
        · rw [Function.update_noteq hvt] at hv
          exact hinv.winner_unique u v hu hv
    · intro h u
      by_cases hut : u = t
      · subst hut
        rw [Function.update_same]
        rfl
      · rw [Function.update_noteq hut]
        by_cases hsome : (winnerGen (st.threads u)).isSome
        · exact absurd
            (hinv.winner_unique u t hsome (by rw [hpc]; simp [winnerGen])) hut
        · exact Option.not_isSome_iff_eq_none.mp hsome
    · exact hinv.calls_le
    · intro u g2 hu
      by_cases hut : u = t
      · subst hut
        rw [Function.update_same] at hu
        cases hu
      · rw [Function.update_noteq hut] at hu
        exfalso
        exact hut (hinv.winner_unique u t (by rw [hu]; simp [winnerGen])
          (by rw [hpc]; simp [winnerGen]))
    · intro u g2 tok2 e2 hu
      by_cases hut : u = t
      · subst hut
        rw [Function.update_same] at hu
        cases hu
      · rw [Function.update_noteq hut] at hu
        exfalso
        exact hut (hinv.winner_unique u t (by rw [hu]; simp [winnerGen])
          (by rw [hpc]; simp [winnerGen]))
    · intro u g2 tok2 e2 hu
      by_cases hut : u = t
      · subst hut
        rw [Function.update_same] at hu
        cases hu
      · rw [Function.update_noteq hut] at hu
        exfalso
        exact hut (hinv.winner_unique u t (by rw [hu]; simp [winnerGen])
          (by rw [hpc]; simp [winnerGen]))
    · intro u g2 tok2 e2 hu
      by_cases hut : u = t
      · subst hut
        rw [Function.update_same] at hu
        cases hu
      · rw [Function.update_noteq hut] at hu
        exfalso
        exact hut (hinv.winner_unique u t (by rw [hu]; simp [winnerGen])
          (by rw [hpc]; simp [winnerGen]))
    · exact hinv.closed_state
    · intro u tok2 e2 hu
      by_cases hut : u = t
      · subst hut
        rw [Function.update_same] at hu
        injection hu with h1 h2
        subst h1
        subst h2
        exact ⟨hres, hcalls1⟩
      · rw [Function.update_noteq hut] at hu
        exact hinv.finished_state u tok2 e2 hu
    · intro h1 h2
      exact hclosed
  | waiting g =>
    obtain ⟨hg0, hng⟩ := hinv.waiting_gen t g hpc
    subst hg0
    by_cases hcl : (st.prom 0).closed = true
    · obtain ⟨htok, herr, hcalls1⟩ := hinv.closed_state hcl
      have hstep : sfStep vres st t =
          { st with
            threads := Function.update st.threads t
              (.finished (st.prom 0).token (st.prom 0).errMsg) } := by
        unfold sfStep
        rw [hpc]
        dsimp only
        rw [if_pos hcl]
      rw [hstep]
      refine ⟨?_, ?_, ?_, ?_, ?_, ?_, ?_, ?_, ?_, ?_, ?_, ?_, ?_, ?_, ?_⟩ <;>
        dsimp only
      · exact hinv.nextGen_le
      · intro h
        omega
      · exact hinv.entry_gen
      · intro u g2 hu
        by_cases hut : u = t
        · subst hut
          rw [Function.update_same] at hu
          cases hu
        · rw [Function.update_noteq hut] at hu
          exact hinv.waiting_gen u g2 hu
      · intro u g2 hu
        by_cases hut : u = t
        · subst hut
          rw [Function.update_same] at hu
          simp [winnerGen] at hu
        · rw [Function.update_noteq hut] at hu
          exact hinv.winner_gen u g2 hu
      · intro u v hu hv
        by_cases hut : u = t
        · subst hut
          rw [Function.update_same] at hu
          simp [winnerGen] at hu
        · rw [Function.update_noteq hut] at hu
          by_cases hvt : v = t
          · subst hvt
            rw [Function.update_same] at hv
            simp [winnerGen] at hv
          · rw [Function.update_noteq hvt] at hv
            exact hinv.winner_unique u v hu hv
      · intro h u
        by_cases hut : u = t
        · subst hut
          rw [Function.update_same]
          rfl
        · rw [Function.update_noteq hut]
          exact hinv.no_winner_no_entry h u
      · exact hinv.calls_le
      · intro u g2 hu
        by_cases hut : u = t
        · subst hut
          rw [Function.update_same] at hu
          cases hu
        · rw [Function.update_noteq hut] at hu
          exact hinv.winCall_state u g2 hu
      · intro u g2 tok2 e2 hu
        by_cases hut : u = t
        · subst hut
          rw [Function.update_same] at hu
          cases hu
        · rw [Function.update_noteq hut] at hu
          exact hinv.winSet_state u g2 tok2 e2 hu
      · intro u g2 tok2 e2 hu
        by_cases hut : u = t
        · subst hut
          rw [Function.update_same] at hu
          cases hu
        · rw [Function.update_noteq hut] at hu
          exact hinv.winClose_state u g2 tok2 e2 hu
      · intro u g2 tok2 e2 hu
        by_cases hut : u = t
        · subst hut
          rw [Function.update_same] at hu
          cases hu
        · rw [Function.update_noteq hut] at hu
          exact hinv.winDelete_state u g2 tok2 e2 hu
      · exact hinv.closed_state
      · intro u tok2 e2 hu
        by_cases hut : u = t
        · subst hut
          rw [Function.update_same] at hu
          injection hu with h1 h2
          subst h1
          subst h2
          refine ⟨?_, hcalls1⟩
          rw [htok, herr]
        · rw [Function.update_noteq hut] at hu
          exact hinv.finished_state u tok2 e2 hu
      · exact hinv.post_delete
    · have hstep : sfStep vres st t = st := by
        unfold sfStep
        rw [hpc]
        dsimp only
        rw [if_neg hcl]
      rw [hstep]
      exact hinv
  | finished tok e =>
    have hstep : sfStep vres st t = st := by
      unfold sfStep
      rw [hpc]
    rw [hstep]
    exact hinv

theorem sfInv_run (vres : Nat → String × Option String) :
    ∀ (s : List (Fin n)) (st : SFState n), SFInv vres st →
      sfValidSched vres st s = true → SFInv vres (sfRun vres st s) := by
  intro s
  induction s with
  | nil =>
    intro st h _
    exact h
  | cons t s ih =>
    intro st hinv hval
    unfold sfValidSched at hval
    rw [Bool.and_eq_true] at hval
    obtain ⟨hv1, hv2⟩ := hval
    refine ih (sfStep vres st t) (sfInv_step vres st t hinv ?_) hv2
    intro hstart
    simp only [Bool.or_eq_true, decide_eq_true_eq] at hv1
    rcases hv1 with (h | h) | h
    · exact absurd hstart h
    · exact Or.inl h
    · exact Or.inr h

/-- **C1.** Single-flight deduplication: under every schedule in which the
`N` threads are genuinely concurrent (no thread's `LoadOrStore` happens after
the in-flight entry has been deleted), at most one remote tokenize call is
ever made; every thread that returns returns exactly the `(token, err)` pair
of that single remote call (so all `N` callers observe the identical pair,
and any caller's returning means the one call happened); and the registry
entry is only ever removed after the promise's result fields are set and its
completion channel closed (a deleted-entry state has the promise closed with
the call's result fixed in it) — the winner completes the promise, signals,
and only then removes the registry entry. -/
theorem singleflight_one_call_same_result :
    ∀ (n : Nat) (vres : Nat → String × Option String) (s : List (Fin n)),
      sfValidSched vres (SFState.init n) s = true →
      (sfRun vres (SFState.init n) s).calls ≤ 1 ∧
      (∀ t tok e,
        (sfRun vres (SFState.init n) s).threads t = .finished tok e →
        (tok, e) = vres 0 ∧ (sfRun vres (SFState.init n) s).calls = 1) ∧
      ((sfRun vres (SFState.init n) s).entry = none →
        (sfRun vres (SFState.init n) s).nextGen = 1 →
        ((sfRun vres (SFState.init n) s).prom 0).closed = true ∧
        ((sfRun vres (SFState.init n) s).prom 0).token = (vres 0).1 ∧
        ((sfRun vres (SFState.init n) s).prom 0).errMsg = (vres 0).2) := by
  intro n vres s hval
  have hinv := sfInv_run vres s (SFState.init n) (sfInv_init vres n) hval
  refine ⟨hinv.calls_le, hinv.finished_state, ?_⟩
  intro h1 h2
  have hcl := hinv.post_delete h1 h2
  obtain ⟨ht, he, -⟩ := hinv.closed_state hcl
  exact ⟨hcl, ht, he⟩

/-- Witness for C1: three threads racing for one value under an interleaved
valid schedule (thread 0 wins; threads 1 and 2 register as waiters before
the delete); exactly one remote call is made and all three threads finish
with the identical `("TOK", none)` result. -/
theorem singleflight_one_call_same_result_witness :
    (sfRun (fun _ => ("TOK", none)) (SFState.init 3)
        [0, 1, 0, 2, 0, 0, 1, 0, 2]).calls = 1 ∧
    (∀ t : Fin 3,
      (sfRun (fun _ => ("TOK", none)) (SFState.init 3)
          [0, 1, 0, 2, 0, 0, 1, 0, 2]).threads t =
        ThreadPC.finished "TOK" none) := by
  have h := singleflight_one_call_same_result 3 (fun _ => ("TOK", none))
    [0, 1, 0, 2, 0, 0, 1, 0, 2] (by decide)
  exact ⟨(h.2.1 0 "TOK" none (by decide)).2, by decide⟩
